import Mathlib

/-!
Verification development for the hierarchical configuration management
service.  The definitions embed the storage layer of the service
(`DatabaseStorage` in the TypeScript server, `Repository` in the Go
backend): configuration nodes, the parent-path walk, the inheritance
merge that produces an effective configuration, recursive deletion, and
the request handlers that guard creation and update.  Loops and
recursion of the source are embedded with an explicit fuel argument;
`none` denotes a run that did not finish within the given fuel.
-/

namespace ConfigMgmt

/-- Value is the tagged union stored in the jsonb columns: string,
number, boolean, object, array, or null. -/
inductive Value where
  | vnull : Value
  | vbool (b : Bool) : Value
  | vnum (n : Int) : Value
  | vstr (s : String) : Value
  | varr (elems : List Value) : Value
  | vobj (fields : List (String × Value)) : Value

/-- PropMap is a jsonb object: an ordered association list of
string-keyed values, mirroring the insertion-ordered maps used for the
defaults and properties columns. -/
abbrev PropMap := List (String × Value)

/-- Lookup of a key in a property map (first matching entry). -/
def lookupKey (m : PropMap) (k : String) : Option Value :=
  (m.find? (fun p => p.1 == k)).map (fun p => p.2)

/-- Whether a key is present in a property map. -/
def containsKey (m : PropMap) (k : String) : Bool :=
  (lookupKey m k).isSome

/-- Assignment of a single key, as a JavaScript object write: an
existing entry keeps its position and is overwritten, a new entry is
appended at the end. -/
def setKey (m : PropMap) (k : String) (v : Value) : PropMap :=
  if m.any (fun p => p.1 == k) then
    m.map (fun p => if p.1 == k then (k, v) else p)
  else
    m ++ [(k, v)]

/-- Object.assign(target, src): each entry of src is written into the
target in order, every key overwriting any existing value. -/
def objectAssign (target src : PropMap) : PropMap :=
  src.foldl (fun acc p => setKey acc p.1 p.2) target

/-- Keys of a property map are pairwise distinct. -/
def keysUnique : PropMap → Bool
  | [] => true
  | (k, _) :: rest => (!(rest.any (fun p => p.1 == k))) && keysUnique rest

/-- A row of the config_nodes table.  The store-managed timestamps are
omitted; no verified property mentions them. -/
structure ConfigNode where
  id : Nat
  name : String
  parentId : Option Nat
  userId : String
  properties : PropMap
  defaults : PropMap
  nodeType : String

/-- Store is the config_nodes table contents. -/
abbrev Store := List ConfigNode

/-- DatabaseStorage.getConfigNode: select the row whose id matches. -/
def getConfigNode (s : Store) (id : Nat) : Option ConfigNode :=
  s.find? (fun n => n.id == id)

/-- Ids of the rows are pairwise distinct (serial primary key). -/
def idsUnique : Store → Bool
  | [] => true
  | n :: rest => (!(rest.any (fun m => m.id == n.id))) && idsUnique rest

/-- Loop body of DatabaseStorage.getConfigNodePath: starting from the
target id, follow parentId upward, putting each visited node at the
front of the accumulator, until a node with no parent is reached or a
lookup fails.  The fuel argument bounds the number of iterations of the
embedded while loop. -/
def pathAux (s : Store) : Nat → Option Nat → List ConfigNode → Option (List ConfigNode)
  | _, none, acc => some acc
  | 0, some _, _ => none
  | fuel + 1, some cid, acc =>
    match getConfigNode s cid with
    | none => some acc
    | some node => pathAux s fuel node.parentId (node :: acc)

/-- DatabaseStorage.getConfigNodePath. -/
def getConfigNodePath (s : Store) (fuel : Nat) (id : Nat) : Option (List ConfigNode) :=
  pathAux s fuel (some id) []

/-- One iteration of DatabaseStorage.resolveConfiguration: merge the
defaults of the node, then its properties, then write the key $NAME to
the name of the node. -/
def foldStep (acc : PropMap) (n : ConfigNode) : PropMap :=
  setKey (objectAssign (objectAssign acc n.defaults) n.properties) "$NAME" (Value.vstr n.name)

/-- The accumulation loop of DatabaseStorage.resolveConfiguration over
an already computed path. -/
def resolveFold (path : List ConfigNode) : PropMap :=
  path.foldl foldStep []

/-- DatabaseStorage.resolveConfiguration: path walk followed by the
root-to-leaf merge. -/
def resolveConfiguration (s : Store) (fuel : Nat) (id : Nat) : Option PropMap :=
  (getConfigNodePath s fuel id).map resolveFold

/-- The fold exactly as claim C1 words it: for each path node, defaults
merged first and then properties, with no further writes. -/
def claimFold (path : List ConfigNode) : PropMap :=
  path.foldl (fun acc n => objectAssign (objectAssign acc n.defaults) n.properties) []

/-- Option choice: the first operand when present, otherwise the
second.  Used to state per-key merge semantics. -/
def oor (a b : Option Value) : Option Value :=
  match a with
  | some v => some v
  | none => b

/-- Modelled from the spec: merging a map into a functional
accumulator, each key of the merged map overwriting any existing value
for that key. -/
def mergeSpec (acc : String → Option Value) (m : PropMap) : String → Option Value :=
  fun k => oor (lookupKey m k) (acc k)

/-- Specification-side step of the resolver contract, amended with the
$NAME binding the implementation performs after the two merges. -/
def specStep (acc : String → Option Value) (n : ConfigNode) : String → Option Value :=
  fun k =>
    if k = "$NAME" then some (Value.vstr n.name)
    else mergeSpec (mergeSpec acc n.defaults) n.properties k

/-- Specification-side resolver: the per-key meaning of the fold of
specStep over a root-first path. -/
def specResolve (path : List ConfigNode) : String → Option Value :=
  path.foldl specStep (fun _ => none)

/-- Sequential deletion of a list of node ids using a given
single-node deletion function. -/
def deleteManyF (d : Store → Nat → Option Store) : Store → List Nat → Option Store
  | s, [] => some s
  | s, id :: rest =>
    match d s id with
    | none => none
    | some s2 => deleteManyF d s2 rest

/-- One unfolding of DatabaseStorage.deleteConfigNode: collect the ids
of the direct children, delete each of them recursively with d, then
delete the rows whose id matches. -/
def deleteStep (d : Store → Nat → Option Store) (s : Store) (id : Nat) : Option Store :=
  match deleteManyF d s ((s.filter (fun n => n.parentId == some id)).map (fun n => n.id)) with
  | none => none
  | some s2 => some (s2.filter (fun n => !(n.id == id)))

/-- DatabaseStorage.deleteConfigNode, with fuel bounding the depth of
the recursion; none means the recursion did not finish in the given
fuel. -/
def deleteAux : Nat → Store → Nat → Option Store :=
  fun fuel =>
    Nat.rec (motive := fun _ => Store → Nat → Option Store)
      (fun _ _ => none) (fun _ ih => deleteStep ih) fuel

/-- Entry point of the cascading delete. -/
def deleteConfigNode (s : Store) (fuel : Nat) (id : Nat) : Option Store :=
  deleteAux fuel s id

/-- Update payload accepted by updateConfigNodeSchema: every insert
field made optional, with only userId removed.  A missing field leaves
the column untouched; parentId may also be set to null explicitly. -/
structure UpdateData where
  name : Option String := none
  parentId : Option (Option Nat) := none
  nodeType : Option String := none
  properties : Option PropMap := none
  defaults : Option PropMap := none

/-- Application of an update payload to one row, as the spread of the
payload into the drizzle set clause. -/
def applyUpdate (n : ConfigNode) (u : UpdateData) : ConfigNode :=
  { id := n.id
    userId := n.userId
    name := u.name.getD n.name
    parentId := u.parentId.getD n.parentId
    nodeType := u.nodeType.getD n.nodeType
    properties := u.properties.getD n.properties
    defaults := u.defaults.getD n.defaults }

/-- DatabaseStorage.updateConfigNode: update the rows whose id matches
and return the updated row when one exists. -/
def updateConfigNode (s : Store) (id : Nat) (u : UpdateData) : Store × Option ConfigNode :=
  (s.map (fun n => if n.id == id then applyUpdate n u else n),
   (s.find? (fun n => n.id == id)).map (fun n => applyUpdate n u))

/-- Error outcomes of the HTTP layer, in the taxonomy of the spec. -/
inductive RouteError where
  | validationError
  | notFound
  | accessDenied
  | internalError
deriving DecidableEq

/-- Outcome of the create handler. -/
inductive CreateNodeResult where
  | created (n : ConfigNode)
  | failed (e : RouteError)

/-- Next serial id assigned by the database on insert. -/
def nextId (s : Store) : Nat :=
  s.foldl (fun m n => max m n.id) 0 + 1

/-- DatabaseStorage.createConfigNode: insert one row. -/
def createConfigNode (s : Store) (n : ConfigNode) : Store :=
  s ++ [n]

/-- The insert performed by the create handler once its checks pass:
the database assigns the next serial id and enforces the foreign key on
parent_id, a violation surfacing as a 500 error. -/
def createInsert (s : Store) (uid nm ntype : String) (parentId : Option Nat)
    (props defs : PropMap) : CreateNodeResult × Store :=
  let node : ConfigNode :=
    { id := nextId s, name := nm, parentId := parentId, userId := uid,
      properties := props, defaults := defs, nodeType := ntype }
  match parentId with
  | some pid =>
    if s.any (fun n => n.id == pid) then (.created node, createConfigNode s node)
    else (.failed .internalError, s)
  | none => (.created node, createConfigNode s node)

/-- The POST config-nodes handler: when a supplied parent id is truthy,
the handler requires the parent to exist and to belong to the caller,
answering 400 (Invalid parent node) otherwise; only then does it
insert. -/
def createConfigNodeRoute (s : Store) (uid nm ntype : String) (parentId : Option Nat)
    (props defs : PropMap) : CreateNodeResult × Store :=
  match parentId with
  | some pid =>
    if pid != 0 then
      match getConfigNode s pid with
      | none => (.failed .validationError, s)
      | some parent =>
        if parent.userId != uid then (.failed .validationError, s)
        else createInsert s uid nm ntype parentId props defs
    else createInsert s uid nm ntype parentId props defs
  | none => createInsert s uid nm ntype parentId props defs

/-- PropTable is the config_properties table of the Go backend, grouped
by node id: for each node, its rows as an association list already
ordered by key, each value taken after JSON unmarshalling. -/
abbrev PropTable := List (Nat × PropMap)

/-- Repository.GetPropertiesByNodeID: the rows stored for one node. -/
def getPropertiesByNodeID (table : PropTable) (nid : Nat) : PropMap :=
  ((table.find? (fun p => p.1 == nid)).map (fun p => p.2)).getD []

/-- Loop body of Repository.ResolveConfiguration: write each row value
under its key, root to leaf; the default_value column is never
consulted and no extra binding is added. -/
def goResolveStep (table : PropTable) (acc : PropMap) (n : ConfigNode) : PropMap :=
  objectAssign acc (getPropertiesByNodeID table n.id)

/-- Repository.ResolveConfiguration over an already computed path. -/
def goResolveFold (table : PropTable) (path : List ConfigNode) : PropMap :=
  path.foldl (goResolveStep table) []

/-- Consecutive links of a root-first path: every later element has the
element before it as its parent. -/
def chainOk : List ConfigNode → Bool
  | [] => true
  | [_] => true
  | a :: b :: rest => (b.parentId == some a.id) && chainOk (b :: rest)

/-- The head of the accumulator of the path walk points at the cursor. -/
def headLink (cur : Option Nat) : List ConfigNode → Bool
  | [] => true
  | h :: _ => h.parentId == cur

/-- No row of the store carries the given id. -/
def noId (s : Store) (i : Nat) : Prop :=
  ∀ m ∈ s, m.id ≠ i

/-- Every parent reference in the second store either resolves inside
the second store or already dangled in the first one. -/
def refsClosed (s s2 : Store) : Prop :=
  ∀ m ∈ s2, ∀ q, m.parentId = some q → (∃ t ∈ s2, t.id = q) ∨ (∀ t ∈ s, t.id ≠ q)

/-- Whether the while loop of the path walk finishes under some bound. -/
def pathWalkTerminates (s : Store) (id : Nat) : Prop :=
  ∃ fuel, (getConfigNodePath s fuel id).isSome = true

/-- A one-node store: a root named root owned by alice, empty maps. -/
def node1 : ConfigNode :=
  { id := 1, name := "root", parentId := none, userId := "alice",
    properties := [], defaults := [], nodeType := "territory" }

def store1 : Store := [node1]

/-- A root whose properties store a number under the reserved key. -/
def node7 : ConfigNode :=
  { id := 1, name := "root", parentId := none, userId := "alice",
    properties := [("$NAME", Value.vnum 42)], defaults := [], nodeType := "territory" }

def store7 : Store := [node7]

/-- Nodes of a corrupted store whose parent links form a cycle. -/
def cycleNodeA : ConfigNode :=
  { id := 1, name := "a", parentId := some 2, userId := "alice",
    properties := [], defaults := [], nodeType := "territory" }

def cycleNodeB : ConfigNode :=
  { id := 2, name := "b", parentId := some 1, userId := "alice",
    properties := [], defaults := [], nodeType := "center" }

def cycleStore : Store := [cycleNodeA, cycleNodeB]

/-- A parent and child pair used to witness path, resolution and delete
theorems. -/
def wRoot : ConfigNode :=
  { id := 1, name := "Production", parentId := none, userId := "alice",
    properties := [("cache", Value.vbool true)],
    defaults := [("timeout", Value.vnum 10)], nodeType := "territory" }

def wChild : ConfigNode :=
  { id := 2, name := "EastCoast", parentId := some 1, userId := "alice",
    properties := [("region", Value.vstr "us-east-1")], defaults := [],
    nodeType := "center" }

def wStore : Store := [wRoot, wChild]

/-- A node with one property and no defaults, used to relate the two
resolver implementations, and the matching per-row table. -/
def gNode : ConfigNode :=
  { id := 5, name := "G", parentId := none, userId := "alice",
    properties := [("a", Value.vnum 1)], defaults := [], nodeType := "territory" }

def gTable : PropTable := [(5, [("a", Value.vnum 1)])]

theorem oor_none_left (b : Option Value) : oor none b = b := rfl

theorem oor_some (v : Value) (b : Option Value) : oor (some v) b = some v := rfl

theorem oor_none_right (a : Option Value) : oor a none = a := by
  cases a <;> rfl

theorem lookupKey_nil (k : String) : lookupKey [] k = none := rfl

theorem lookupKey_cons (k1 : String) (v1 : Value) (rest : PropMap) (k : String) :
    lookupKey ((k1, v1) :: rest) k = if k1 == k then some v1 else lookupKey rest k := by
  cases h : k1 == k <;> simp [lookupKey, List.find?_cons, h]

theorem lookupKey_append (m1 m2 : PropMap) (k : String) :
    lookupKey (m1 ++ m2) k = oor (lookupKey m1 k) (lookupKey m2 k) := by
  induction m1 with
  | nil => simp [lookupKey_nil, oor]
  | cons p rest ih =>
    obtain ⟨k1, v1⟩ := p
    rw [List.cons_append, lookupKey_cons, lookupKey_cons]
    cases h : k1 == k <;> simp [h, ih, oor]

theorem any_eq_isSome (m : PropMap) (k : String) :
    m.any (fun p => p.1 == k) = (lookupKey m k).isSome := by
  induction m with
  | nil => rfl
  | cons p rest ih =>
    obtain ⟨k1, v1⟩ := p
    rw [lookupKey_cons]
    cases h : k1 == k <;> simp [List.any_cons, h, ih]

theorem lookupKey_overwrite (m : PropMap) (k : String) (v : Value)
    (h : m.any (fun p => p.1 == k) = true) :
    lookupKey (m.map (fun p => if p.1 == k then (k, v) else p)) k = some v := by
  induction m with
  | nil => simp at h
  | cons p rest ih =>
    obtain ⟨k1, v1⟩ := p
    simp only [List.map_cons]
    cases h1 : k1 == k
    · have hrest : rest.any (fun p => p.1 == k) = true := by
        simpa [List.any_cons, h1] using h
      simpa [h1, lookupKey_cons] using ih hrest
    · simp [h1, lookupKey_cons]

theorem lookupKey_map_other (m : PropMap) (k k2 : String) (v : Value) (hne : k2 ≠ k) :
    lookupKey (m.map (fun p => if p.1 == k then (k, v) else p)) k2 = lookupKey m k2 := by
  have hk2 : (k == k2) = false := by
    simp only [beq_eq_false_iff_ne, ne_eq]
    exact fun he => hne he.symm
  induction m with
  | nil => rfl
  | cons p rest ih =>
    obtain ⟨k1, v1⟩ := p
    simp only [List.map_cons]
    cases h1 : k1 == k
    · rw [if_neg (by simp), lookupKey_cons, lookupKey_cons, ih]
    · have hk1 : k1 = k := by simpa using h1
      rw [if_pos rfl, lookupKey_cons, lookupKey_cons, ih, hk1, hk2]
      simp

theorem lookupKey_setKey_self (m : PropMap) (k : String) (v : Value) :
    lookupKey (setKey m k v) k = some v := by
  unfold setKey
  cases h : m.any (fun p => p.1 == k)
  · have hm : lookupKey m k = none := by
      have := any_eq_isSome m k
      rw [h] at this
      exact Option.not_isSome_iff_eq_none.mp (by simp [← this])
    simp [h, lookupKey_append, hm, lookupKey_cons, oor]
  · simpa [h] using lookupKey_overwrite m k v h

theorem lookupKey_setKey_ne (m : PropMap) (k k2 : String) (v : Value) (hne : k2 ≠ k) :
    lookupKey (setKey m k v) k2 = lookupKey m k2 := by
  unfold setKey
  cases h : m.any (fun p => p.1 == k)
  · have h2 : (k == k2) = false := by
      simp; exact fun he => hne he.symm
    simp [h, lookupKey_append, lookupKey_cons, h2, lookupKey_nil, oor_none_right]
  · simpa [h] using lookupKey_map_other m k k2 v hne

theorem keysUnique_cons (k1 : String) (v1 : Value) (rest : PropMap)
    (hu : keysUnique ((k1, v1) :: rest) = true) :
    rest.any (fun p => p.1 == k1) = false ∧ keysUnique rest = true := by
  simpa [keysUnique, Bool.and_eq_true, Bool.not_eq_true'] using hu

theorem lookupKey_objectAssign (tgt src : PropMap) (k : String)
    (hu : keysUnique src = true) :
    lookupKey (objectAssign tgt src) k = oor (lookupKey src k) (lookupKey tgt k) := by
  induction src generalizing tgt with
  | nil => simp [objectAssign, oor, lookupKey_nil]
  | cons p rest ih =>
    obtain ⟨k1, v1⟩ := p
    obtain ⟨hu1, hu2⟩ := keysUnique_cons k1 v1 rest hu
    have hstep : objectAssign tgt ((k1, v1) :: rest) = objectAssign (setKey tgt k1 v1) rest := rfl
    rw [hstep, ih _ hu2, lookupKey_cons]
    by_cases hk : k1 = k
    · subst hk
      have hnone : lookupKey rest k1 = none := by
        have := any_eq_isSome rest k1
        rw [hu1] at this
        exact Option.not_isSome_iff_eq_none.mp (by simp [← this])
      simp [hnone, oor, lookupKey_setKey_self]
    · have hb : (k1 == k) = false := by simpa using hk
      rw [lookupKey_setKey_ne tgt k1 k v1 (fun he => hk he.symm)]
      simp [hb]

theorem lookupKey_foldStep (acc : PropMap) (n : ConfigNode) (k : String)
    (hd : keysUnique n.defaults = true) (hp : keysUnique n.properties = true) :
    lookupKey (foldStep acc n) k = specStep (fun k2 => lookupKey acc k2) n k := by
  unfold foldStep specStep mergeSpec
  by_cases hk : k = "$NAME"
  · subst hk; simp [lookupKey_setKey_self]
  · rw [lookupKey_setKey_ne _ _ _ _ hk,
      lookupKey_objectAssign _ _ _ hp, lookupKey_objectAssign _ _ _ hd]
    simp [hk]

theorem lookupKey_resolveFoldAux (path : List ConfigNode) :
    ∀ acc : PropMap,
    (∀ n ∈ path, keysUnique n.defaults = true ∧ keysUnique n.properties = true) →
    ∀ k, lookupKey (List.foldl foldStep acc path) k =
      List.foldl specStep (fun k2 => lookupKey acc k2) path k := by
  induction path with
  | nil => intro acc h k; rfl
  | cons n rest ih =>
    intro acc h k
    have hn := h n (List.mem_cons_self n rest)
    have hfun : (fun k2 => lookupKey (foldStep acc n) k2) =
        specStep (fun k2 => lookupKey acc k2) n := by
      funext k2; exact lookupKey_foldStep acc n k2 hn.1 hn.2
    simp only [List.foldl_cons]
    rw [ih (foldStep acc n) (fun m hm => h m (List.mem_cons_of_mem _ hm)) k, hfun]

theorem getConfigNode_id (s : Store) (cid : Nat) (n : ConfigNode)
    (h : getConfigNode s cid = some n) : n.id = cid := by
  have := List.find?_some h
  simpa using this

theorem getConfigNode_mem (s : Store) (cid : Nat) (n : ConfigNode)
    (h : getConfigNode s cid = some n) : n ∈ s :=
  List.mem_of_find?_eq_some h

theorem pathAux_none (s : Store) (fuel : Nat) (acc : List ConfigNode) :
    pathAux s fuel none acc = some acc := by
  cases fuel <;> rfl

theorem pathAux_zero (s : Store) (cid : Nat) (acc : List ConfigNode) :
    pathAux s 0 (some cid) acc = none := rfl

theorem pathAux_succ (s : Store) (f cid : Nat) (acc : List ConfigNode) :
    pathAux s (f + 1) (some cid) acc =
      match getConfigNode s cid with
      | none => some acc
      | some node => pathAux s f node.parentId (node :: acc) := rfl

theorem pathAux_suffix (s : Store) :
    ∀ (fuel : Nat) (cur : Option Nat) (acc path : List ConfigNode),
    pathAux s fuel cur acc = some path → ∃ pre, path = pre ++ acc := by
  intro fuel
  induction fuel with
  | zero =>
    intro cur acc path h
    cases cur with
    | none =>
      rw [pathAux_none] at h
      obtain rfl : acc = path := Option.some.inj h
      exact ⟨[], rfl⟩
    | some cid => rw [pathAux_zero] at h; cases h
  | succ f ih =>
    intro cur acc path h
    cases cur with
    | none =>
      rw [pathAux_none] at h
      obtain rfl : acc = path := Option.some.inj h
      exact ⟨[], rfl⟩
    | some cid =>
      rw [pathAux_succ] at h
      cases hg : getConfigNode s cid with
      | none =>
        rw [hg] at h
        obtain rfl : acc = path := Option.some.inj h
        exact ⟨[], rfl⟩
      | some node =>
        rw [hg] at h
        obtain ⟨pre, hpre⟩ := ih _ _ _ h
        exact ⟨pre ++ [node], by simp [hpre]⟩

theorem chainOk_cons (n : ConfigNode) (acc : List ConfigNode)
    (hacc : chainOk acc = true) (hl : headLink (some n.id) acc = true) :
    chainOk (n :: acc) = true := by
  cases acc with
  | nil => rfl
  | cons h t =>
    have hh : (h.parentId == some n.id) = true := hl
    simp [chainOk, hh]
    exact hacc

theorem pathAux_chain (s : Store) :
    ∀ (fuel : Nat) (cur : Option Nat) (acc path : List ConfigNode),
    pathAux s fuel cur acc = some path → chainOk acc = true →
    headLink cur acc = true → chainOk path = true := by
  intro fuel
  induction fuel with
  | zero =>
    intro cur acc path h hc hl
    cases cur with
    | none =>
      rw [pathAux_none] at h
      obtain rfl : acc = path := Option.some.inj h
      exact hc
    | some cid => rw [pathAux_zero] at h; cases h
  | succ f ih =>
    intro cur acc path h hc hl
    cases cur with
    | none =>
      rw [pathAux_none] at h
      obtain rfl : acc = path := Option.some.inj h
      exact hc
    | some cid =>
      rw [pathAux_succ] at h
      cases hg : getConfigNode s cid with
      | none =>
        rw [hg] at h
        obtain rfl : acc = path := Option.some.inj h
        exact hc
      | some node =>
        rw [hg] at h
        have hid : node.id = cid := getConfigNode_id s cid node hg
        have hc2 : chainOk (node :: acc) = true := by
          apply chainOk_cons _ _ hc
          cases acc with
          | nil => rfl
          | cons hh tt =>
            have hpar : (hh.parentId == some cid) = true := hl
            simpa [headLink, hid] using hpar
        exact ih _ _ _ h hc2 (by simp [headLink])

theorem pathAux_mem (s : Store) :
    ∀ (fuel : Nat) (cur : Option Nat) (acc path : List ConfigNode),
    pathAux s fuel cur acc = some path → ∀ n ∈ path, n ∈ acc ∨ n ∈ s := by
  intro fuel
  induction fuel with
  | zero =>
    intro cur acc path h n hn
    cases cur with
    | none =>
      rw [pathAux_none] at h
      obtain rfl : acc = path := Option.some.inj h
      exact Or.inl hn
    | some cid => rw [pathAux_zero] at h; cases h
  | succ f ih =>
    intro cur acc path h n hn
    cases cur with
    | none =>
      rw [pathAux_none] at h
      obtain rfl : acc = path := Option.some.inj h
      exact Or.inl hn
    | some cid =>
      rw [pathAux_succ] at h
      cases hg : getConfigNode s cid with
      | none =>
        rw [hg] at h
        obtain rfl : acc = path := Option.some.inj h
        exact Or.inl hn
      | some node =>
        rw [hg] at h
        rcases ih _ _ _ h n hn with h1 | h2
        · rcases List.mem_cons.mp h1 with rfl | h3
          · exact Or.inr (getConfigNode_mem s cid n hg)
          · exact Or.inl h3
        · exact Or.inr h2

theorem pathAux_root (s : Store) :
    ∀ (fuel : Nat) (cur : Option Nat) (acc path : List ConfigNode),
    pathAux s fuel cur acc = some path →
    (path = acc ∧ (cur = none ∨ ∃ q, cur = some q ∧ getConfigNode s q = none)) ∨
    (∃ h t, path = h :: t ∧
      (h.parentId = none ∨ ∃ q, h.parentId = some q ∧ getConfigNode s q = none)) := by
  intro fuel
  induction fuel with
  | zero =>
    intro cur acc path h
    cases cur with
    | none =>
      rw [pathAux_none] at h
      obtain rfl : acc = path := Option.some.inj h
      exact Or.inl ⟨rfl, Or.inl rfl⟩
    | some cid => rw [pathAux_zero] at h; cases h
  | succ f ih =>
    intro cur acc path h
    cases cur with
    | none =>
      rw [pathAux_none] at h
      obtain rfl : acc = path := Option.some.inj h
      exact Or.inl ⟨rfl, Or.inl rfl⟩
    | some cid =>
      rw [pathAux_succ] at h
      cases hg : getConfigNode s cid with
      | none =>
        rw [hg] at h
        obtain rfl : acc = path := Option.some.inj h
        exact Or.inl ⟨rfl, Or.inr ⟨cid, rfl, hg⟩⟩
      | some node =>
        rw [hg] at h
        rcases ih _ _ _ h with ⟨hpe, hcur⟩ | ⟨h2, t2, hpe, hcond⟩
        · exact Or.inr ⟨node, acc, hpe, by
            rcases hcur with h3 | ⟨q, hq, hfail⟩
            · exact Or.inl h3
            · exact Or.inr ⟨q, hq, hfail⟩⟩
        · exact Or.inr ⟨h2, t2, hpe, hcond⟩

theorem getConfigNodePath_facts (s : Store) (fuel id : Nat) (node : ConfigNode)
    (path : List ConfigNode) (hn : getConfigNode s id = some node)
    (hp : getConfigNodePath s fuel id = some path) :
    path ≠ [] ∧ path.getLast? = some node ∧ chainOk path = true ∧
    (∀ n ∈ path, n ∈ s) ∧
    (∀ h t, path = h :: t →
      h.parentId = none ∨ ∃ q, h.parentId = some q ∧ getConfigNode s q = none) := by
  unfold getConfigNodePath at hp
  cases fuel with
  | zero => rw [pathAux_zero] at hp; cases hp
  | succ f =>
    rw [pathAux_succ, hn] at hp
    obtain ⟨pre, rfl⟩ := pathAux_suffix s f node.parentId [node] _ hp
    refine ⟨by simp, ?_, ?_, ?_, ?_⟩
    · exact List.getLast?_concat pre
    · exact pathAux_chain s f node.parentId [node] _ hp rfl (by simp [headLink])
    · intro n hn2
      rcases pathAux_mem s f _ _ _ hp n hn2 with h1 | h2
      · have hn3 : n = node := by simpa using h1
        subst hn3
        exact getConfigNode_mem s id n hn
      · exact h2
    · intro h t heq
      rcases pathAux_root s f node.parentId [node] _ hp with ⟨hpe, hcur⟩ | ⟨h2, t2, hpe, hcond⟩
      · rw [hpe] at heq
        injection heq with hh ht
        subst hh
        rcases hcur with h3 | ⟨q, hq, hfail⟩
        · exact Or.inl h3
        · exact Or.inr ⟨q, hq, hfail⟩
      · rw [hpe] at heq
        obtain rfl : h2 = h := by injection heq
        exact hcond

theorem cycleStore_pathAux (fuel : Nat) :
    ∀ (cid : Nat) (acc : List ConfigNode), (cid = 1 ∨ cid = 2) →
    pathAux cycleStore fuel (some cid) acc = none := by
  induction fuel with
  | zero => intro cid acc h; rfl
  | succ f ih =>
    intro cid acc h
    rcases h with rfl | rfl
    · rw [pathAux_succ, show getConfigNode cycleStore 1 = some cycleNodeA from rfl]
      exact ih 2 (cycleNodeA :: acc) (Or.inr rfl)
    · rw [pathAux_succ, show getConfigNode cycleStore 2 = some cycleNodeB from rfl]
      exact ih 1 (cycleNodeB :: acc) (Or.inl rfl)

theorem deleteAux_zero (s : Store) (id : Nat) : deleteAux 0 s id = none := rfl

theorem deleteAux_succ (f : Nat) : deleteAux (f + 1) = deleteStep (deleteAux f) := rfl

theorem deleteManyF_nil (d : Store → Nat → Option Store) (s : Store) :
    deleteManyF d s [] = some s := rfl

theorem deleteManyF_cons (d : Store → Nat → Option Store) (s : Store) (id : Nat)
    (rest : List Nat) :
    deleteManyF d s (id :: rest) =
      match d s id with
      | none => none
      | some s2 => deleteManyF d s2 rest := rfl

theorem any_of_sublist (l1 l2 : Store) (p : ConfigNode → Bool) (hsub : List.Sublist l1 l2)
    (h : l1.any p = true) : l2.any p = true := by
  rcases List.any_eq_true.mp h with ⟨x, hx, hpx⟩
  exact List.any_eq_true.mpr ⟨x, hsub.subset hx, hpx⟩

theorem idsUnique_cons_elim (n : ConfigNode) (rest : Store)
    (h : idsUnique (n :: rest) = true) :
    rest.any (fun m => m.id == n.id) = false ∧ idsUnique rest = true := by
  simpa [idsUnique, Bool.and_eq_true, Bool.not_eq_true'] using h

theorem idsUnique_iff_nodup (s : Store) :
    idsUnique s = true ↔ (s.map (fun n => n.id)).Nodup := by
  induction s with
  | nil => simp [idsUnique]
  | cons n rest ih =>
    rw [List.map_cons, List.nodup_cons, ← ih]
    simp only [idsUnique, Bool.and_eq_true, Bool.not_eq_true']
    constructor
    · rintro ⟨h1, h2⟩
      refine ⟨?_, h2⟩
      intro hmem
      rcases List.mem_map.mp hmem with ⟨m, hm, hmeq⟩
      have : rest.any (fun m => m.id == n.id) = true :=
        List.any_eq_true.mpr ⟨m, hm, by simp [hmeq]⟩
      simp [this] at h1
    · rintro ⟨h1, h2⟩
      refine ⟨?_, h2⟩
      cases hany : rest.any (fun m => m.id == n.id)
      · rfl
      · rcases List.any_eq_true.mp hany with ⟨m, hm, hmeq⟩
        exact absurd (List.mem_map.mpr ⟨m, hm, by simpa using hmeq⟩) h1

theorem idsUnique_sublist (l1 l2 : Store) (hsub : List.Sublist l1 l2)
    (h : idsUnique l2 = true) : idsUnique l1 = true := by
  rw [idsUnique_iff_nodup] at h ⊢
  exact List.Nodup.sublist (hsub.map (fun n => n.id)) h

theorem idsUnique_eq (s : Store) (hu : idsUnique s = true) :
    ∀ m ∈ s, ∀ z ∈ s, m.id = z.id → m = z := by
  induction s with
  | nil => intro m hm; cases hm
  | cons n rest ih =>
    obtain ⟨h1, h2⟩ := idsUnique_cons_elim n rest hu
    intro m hm z hz heq
    rcases List.mem_cons.mp hm with rfl | hm2
    · rcases List.mem_cons.mp hz with rfl | hz2
      · rfl
      · have hzny : (rest.any fun p => p.id == m.id) = true :=
          List.any_eq_true.mpr ⟨z, hz2, by rw [← heq]; simp⟩
        simp [hzny] at h1
    · rcases List.mem_cons.mp hz with rfl | hz2
      · have hmny : (rest.any fun p => p.id == z.id) = true :=
          List.any_eq_true.mpr ⟨m, hm2, by simp [heq]⟩
        simp [hmny] at h1
      · exact ih h2 m hm2 z hz2 heq

theorem noId_of_sublist (l1 l2 : Store) (i : Nat) (hsub : List.Sublist l1 l2)
    (h : noId l2 i) : noId l1 i :=
  fun m hm => h m (hsub.subset hm)

theorem refsClosed_refl (s : Store) : refsClosed s s := by
  intro m hm q hq
  by_cases h : ∃ t ∈ s, t.id = q
  · exact Or.inl h
  · right
    push_neg at h
    exact h

theorem refsClosed_comp (s s1 s2 : Store) (h01 : refsClosed s s1) (h12 : refsClosed s1 s2)
    (hsub : List.Sublist s2 s1) : refsClosed s s2 := by
  intro m hm q hq
  rcases h12 m hm q hq with hlive | hdang
  · exact Or.inl hlive
  · right
    intro t ht heq
    rcases h01 m (hsub.subset hm) q hq with ⟨t1, ht1, heq1⟩ | hd
    · exact hdang t1 ht1 heq1
    · exact hd t ht heq

theorem deleteSpec : ∀ fuel : Nat,
    (∀ s id s2, idsUnique s = true → deleteAux fuel s id = some s2 →
      List.Sublist s2 s ∧ noId s2 id ∧ (∀ m ∈ s, m.parentId = some id → noId s2 m.id) ∧
      refsClosed s s2) ∧
    (∀ s ids s2, idsUnique s = true → deleteManyF (deleteAux fuel) s ids = some s2 →
      List.Sublist s2 s ∧ (∀ c ∈ ids, noId s2 c) ∧ refsClosed s s2) := by
  intro fuel
  induction fuel with
  | zero =>
    constructor
    · intro s id s2 hu h
      rw [deleteAux_zero] at h
      cases h
    · intro s ids s2 hu h
      cases ids with
      | nil =>
        obtain rfl : s = s2 := Option.some.inj h
        exact ⟨List.Sublist.refl s, (by intro c hc; cases hc), refsClosed_refl s⟩
      | cons id rest =>
        rw [deleteManyF_cons, deleteAux_zero] at h
        cases h
  | succ f ih =>
    have hP : ∀ s id s2, idsUnique s = true → deleteAux (f + 1) s id = some s2 →
        List.Sublist s2 s ∧ noId s2 id ∧ (∀ m ∈ s, m.parentId = some id → noId s2 m.id) ∧
        refsClosed s s2 := by
      intro s id s2 hu h
      rw [deleteAux_succ] at h
      unfold deleteStep at h
      cases hm : deleteManyF (deleteAux f) s
          ((s.filter (fun n => n.parentId == some id)).map (fun n => n.id)) with
      | none => rw [hm] at h; cases h
      | some smid =>
        rw [hm] at h
        obtain rfl : smid.filter (fun n => !(n.id == id)) = s2 := Option.some.inj h
        obtain ⟨hsub, hdel, hrc⟩ := ih.2 s _ smid hu hm
        refine ⟨(List.filter_sublist smid).trans hsub, ?_, ?_, ?_⟩
        · intro m hm2 heq
          have hpm := List.of_mem_filter hm2
          simp [heq] at hpm
        · intro m hm2 hpar
          have hcid : m.id ∈ (s.filter (fun n => n.parentId == some id)).map (fun n => n.id) :=
            List.mem_map_of_mem _ (List.mem_filter.mpr ⟨hm2, by simp [hpar]⟩)
          exact noId_of_sublist _ _ _ (List.filter_sublist smid) (hdel m.id hcid)
        · intro m hm2 q hq
          have hms : m ∈ smid := List.mem_of_mem_filter hm2
          rcases hrc m hms q hq with ⟨t, ht, hteq⟩ | hd
          · by_cases hqid : q = id
            · subst hqid
              have hmins : m ∈ s := hsub.subset hms
              have hcid : m.id ∈ (s.filter (fun n => n.parentId == some q)).map (fun n => n.id) :=
                List.mem_map_of_mem _ (List.mem_filter.mpr ⟨hmins, by simp [hq]⟩)
              exact absurd rfl (hdel m.id hcid m hms)
            · left
              refine ⟨t, List.mem_filter.mpr ⟨ht, ?_⟩, hteq⟩
              simp [hteq, hqid]
          · exact Or.inr hd
    refine ⟨hP, ?_⟩
    intro s ids
    induction ids generalizing s with
    | nil =>
      intro s2 hu h
      obtain rfl : s = s2 := Option.some.inj h
      exact ⟨List.Sublist.refl s, (by intro c hc; cases hc), refsClosed_refl s⟩
    | cons id rest ihl =>
      intro s2 hu h
      rw [deleteManyF_cons] at h
      cases h1 : deleteAux (f + 1) s id with
      | none => rw [h1] at h; cases h
      | some s1 =>
        rw [h1] at h
        obtain ⟨hsub1, hno1, hch1, hrc1⟩ := hP s id s1 hu h1
        have hu1 : idsUnique s1 = true := idsUnique_sublist s1 s hsub1 hu
        obtain ⟨hsub2, hno2, hrc2⟩ := ihl s1 s2 hu1 h
        refine ⟨hsub2.trans hsub1, ?_, refsClosed_comp s s1 s2 hrc1 hrc2 hsub2⟩
        intro c hc
        rcases List.mem_cons.mp hc with rfl | hc2
        · exact noId_of_sublist s2 s1 c hsub2 hno1
        · exact hno2 c hc2

theorem chainOk_pair (a b : ConfigNode) (rest : List ConfigNode) :
    chainOk (a :: b :: rest) = ((b.parentId == some a.id) && chainOk (b :: rest)) := rfl

theorem chainOk_append_right (l1 l2 : List ConfigNode) (h : chainOk (l1 ++ l2) = true) :
    chainOk l2 = true := by
  induction l1 with
  | nil => exact h
  | cons a rest ih =>
    rw [List.cons_append] at h
    apply ih
    revert h
    cases hrl : rest ++ l2 with
    | nil => intro h; rfl
    | cons b t =>
      intro h
      rw [chainOk_pair] at h
      simp only [Bool.and_eq_true] at h
      exact h.2

theorem chainDescent (s s2 : Store) (hsub : List.Sublist s2 s) (hu : idsUnique s = true)
    (hrc : refsClosed s s2) :
    ∀ (l : List ConfigNode) (x : ConfigNode), chainOk (x :: l) = true →
    (∀ y ∈ x :: l, y ∈ s) → noId s2 x.id → ∀ y ∈ x :: l, noId s2 y.id := by
  intro l
  induction l with
  | nil =>
    intro x hc hmem hx y hy
    rcases List.mem_cons.mp hy with rfl | h
    · exact hx
    · cases h
  | cons z rest ih =>
    intro x hc hmem hx y hy
    rw [chainOk_pair] at hc
    simp only [Bool.and_eq_true] at hc
    obtain ⟨hlink, hc2⟩ := hc
    have hznoid : noId s2 z.id := by
      intro m hm heq
      have hmins : m ∈ s := hsub.subset hm
      have hzins : z ∈ s := hmem z (by simp)
      obtain rfl : m = z := idsUnique_eq s hu m hmins z hzins heq
      have hpz : m.parentId = some x.id := by simpa using hlink
      rcases hrc m hm x.id hpz with ⟨t, ht, hteq⟩ | hd
      · exact hx t ht hteq
      · exact hd x (hmem x (by simp)) rfl
    rcases List.mem_cons.mp hy with rfl | hy2
    · exact hx
    · exact ih z hc2 (fun w hw => hmem w (List.mem_cons_of_mem x hw)) hznoid y hy2

theorem containsKey_nil (k : String) : containsKey [] k = false := rfl

theorem containsKey_cons (k1 : String) (v1 : Value) (rest : PropMap) (k : String) :
    containsKey ((k1, v1) :: rest) k = true ↔ k = k1 ∨ containsKey rest k = true := by
  unfold containsKey
  rw [lookupKey_cons]
  cases h : k1 == k
  · have : ¬(k = k1) := fun he => by simp [he] at h
    simp [this]
  · have : k = k1 := (by simpa using h : k1 = k).symm
    simp [this]

theorem containsKey_setKey (m : PropMap) (k k2 : String) (v : Value) :
    containsKey (setKey m k2 v) k = true ↔ k = k2 ∨ containsKey m k = true := by
  by_cases h : k = k2
  · subst h
    simp [containsKey, lookupKey_setKey_self]
  · simp [containsKey, lookupKey_setKey_ne m k2 k v h, h]

theorem containsKey_objectAssign (a b : PropMap) (k : String) :
    containsKey (objectAssign a b) k = true ↔
      containsKey a k = true ∨ containsKey b k = true := by
  induction b generalizing a with
  | nil => simp [objectAssign, containsKey_nil]
  | cons p rest ih =>
    obtain ⟨k1, v1⟩ := p
    have hstep : objectAssign a ((k1, v1) :: rest) = objectAssign (setKey a k1 v1) rest := rfl
    rw [hstep, ih, containsKey_setKey, containsKey_cons]
    tauto

theorem containsKey_foldStep (acc : PropMap) (n : ConfigNode) (k : String) :
    containsKey (foldStep acc n) k = true ↔
      k = "$NAME" ∨ containsKey acc k = true ∨
      containsKey n.defaults k = true ∨ containsKey n.properties k = true := by
  unfold foldStep
  rw [containsKey_setKey, containsKey_objectAssign, containsKey_objectAssign]
  tauto

theorem containsKey_resolveFoldAux (path : List ConfigNode) :
    ∀ (acc : PropMap) (k : String),
    containsKey (List.foldl foldStep acc path) k = true ↔
      containsKey acc k = true ∨ (k = "$NAME" ∧ path ≠ []) ∨
      ∃ n ∈ path, containsKey n.defaults k = true ∨ containsKey n.properties k = true := by
  induction path with
  | nil => intro acc k; simp
  | cons n rest ih =>
    intro acc k
    simp only [List.foldl_cons]
    rw [ih]
    rw [containsKey_foldStep]
    constructor
    · rintro (h | h | h)
      · rcases h with h | h | h | h
        · exact Or.inr (Or.inl ⟨h, by simp⟩)
        · exact Or.inl h
        · exact Or.inr (Or.inr ⟨n, by simp, Or.inl h⟩)
        · exact Or.inr (Or.inr ⟨n, by simp, Or.inr h⟩)
      · exact Or.inr (Or.inl ⟨h.1, by simp⟩)
      · rcases h with ⟨m, hm, hv⟩
        exact Or.inr (Or.inr ⟨m, List.mem_cons_of_mem n hm, hv⟩)
    · rintro (h | ⟨h1, _⟩ | ⟨m, hm, hv⟩)
      · exact Or.inl (Or.inr (Or.inl h))
      · exact Or.inl (Or.inl h1)
      · rcases List.mem_cons.mp hm with rfl | hm2
        · rcases hv with hv | hv
          · exact Or.inl (Or.inr (Or.inr (Or.inl hv)))
          · exact Or.inl (Or.inr (Or.inr (Or.inr hv)))
        · exact Or.inr (Or.inr ⟨m, hm2, hv⟩)

theorem specResolve_src (k : String) (hk : k ≠ "$NAME") (v : Value) :
    ∀ (path : List ConfigNode) (f : String → Option Value),
    List.foldl specStep f path k = some v →
    (∃ n ∈ path, lookupKey n.properties k = some v ∨ lookupKey n.defaults k = some v) ∨
      f k = some v := by
  intro path
  induction path with
  | nil => intro f h; exact Or.inr h
  | cons n rest ih =>
    intro f h
    simp only [List.foldl_cons] at h
    rcases ih _ h with ⟨m, hm, hv⟩ | hf
    · exact Or.inl ⟨m, List.mem_cons_of_mem _ hm, hv⟩
    · unfold specStep mergeSpec at hf
      rw [if_neg hk] at hf
      cases hp : lookupKey n.properties k with
      | some w =>
        rw [hp] at hf
        rw [oor_some] at hf
        exact Or.inl ⟨n, by simp, Or.inl (hp.trans hf)⟩
      | none =>
        rw [hp, oor_none_left] at hf
        cases hd : lookupKey n.defaults k with
        | some w =>
          rw [hd, oor_some] at hf
          exact Or.inl ⟨n, by simp, Or.inr (hd.trans hf)⟩
        | none =>
          rw [hd, oor_none_left] at hf
          exact Or.inr hf

theorem find?_map_eq (l : Store) (f : ConfigNode → ConfigNode) (p : ConfigNode → Bool)
    (hpf : ∀ x, p (f x) = p x) :
    (l.map f).find? p = (l.find? p).map f := by
  induction l with
  | nil => rfl
  | cons a rest ih =>
    simp only [List.map_cons]
    cases h : p a
    · have h2 : p (f a) = false := by rw [hpf a, h]
      rw [List.find?_cons_of_neg _ (by simp [h2]), List.find?_cons_of_neg _ (by simp [h]), ih]
    · have h2 : p (f a) = true := by rw [hpf a, h]
      rw [List.find?_cons_of_pos _ h2, List.find?_cons_of_pos _ h]
      rfl

theorem goTsAux (table : PropTable) (path : List ConfigNode) :
    ∀ acc1 acc2 : PropMap,
    (∀ n ∈ path, n.defaults = [] ∧ keysUnique n.properties = true ∧
      keysUnique (getPropertiesByNodeID table n.id) = true ∧
      (∀ k2, lookupKey (getPropertiesByNodeID table n.id) k2 = lookupKey n.properties k2)) →
    (∀ k2, k2 ≠ "$NAME" → lookupKey acc1 k2 = lookupKey acc2 k2) →
    ∀ k, k ≠ "$NAME" →
    lookupKey (List.foldl (goResolveStep table) acc1 path) k =
      lookupKey (List.foldl foldStep acc2 path) k := by
  induction path with
  | nil => intro acc1 acc2 hp hacc k hk; exact hacc k hk
  | cons n rest ih =>
    intro acc1 acc2 hp hacc k hk
    obtain ⟨hd0, hpu, hru, hcorr⟩ := hp n (by simp)
    simp only [List.foldl_cons]
    refine ih _ _ (fun m hm => hp m (List.mem_cons_of_mem _ hm)) ?_ k hk
    intro k2 hk2
    unfold goResolveStep
    rw [lookupKey_objectAssign _ _ _ hru, hcorr k2,
      lookupKey_foldStep acc2 n k2 (by rw [hd0]; rfl) hpu]
    unfold specStep mergeSpec
    rw [if_neg hk2, hd0, lookupKey_nil, oor_none_left]
    cases lookupKey n.properties k2 with
    | none => rw [oor_none_left, oor_none_left]; exact hacc k2 hk2
    | some w => rw [oor_some, oor_some]

theorem getLast?_append_right (l1 l2 : List ConfigNode) (h : l2 ≠ []) :
    (l1 ++ l2).getLast? = l2.getLast? := by
  induction l1 with
  | nil => rfl
  | cons a rest ih =>
    rw [List.cons_append]
    cases hre : rest ++ l2 with
    | nil => exact absurd (List.append_eq_nil.mp hre).2 h
    | cons b t =>
      rw [hre] at ih
      rw [List.getLast?_cons_cons, ih]

theorem mem_of_getLast?_eq (l : List ConfigNode) (a : ConfigNode) (h : l.getLast? = some a) :
    a ∈ l := by
  induction l with
  | nil => cases h
  | cons b rest ih =>
    cases rest with
    | nil =>
      obtain rfl : b = a := Option.some.inj h
      exact List.mem_singleton_self b
    | cons c t =>
      rw [List.getLast?_cons_cons] at h
      exact List.mem_cons_of_mem b (ih h)

/-- C2: for every node that exists in the store, a finished path walk
returns a non-empty root-first sequence which ends with the record of
the queried node, in which every consecutive pair satisfies: the later
element carries the earlier element as its parent; the first element is
a true root or a node whose parent lookup failed, the truncation
boundary at which the broken node acts as the effective root. -/
theorem C2_path_shape (s : Store) (fuel id : Nat) (node : ConfigNode)
    (path : List ConfigNode)
    (hn : getConfigNode s id = some node)
    (hp : getConfigNodePath s fuel id = some path) :
    path ≠ [] ∧ path.getLast? = some node ∧ chainOk path = true ∧
    (∀ h t, path = h :: t →
      h.parentId = none ∨ ∃ q, h.parentId = some q ∧ getConfigNode s q = none) := by
  obtain ⟨h1, h2, h3, _, h5⟩ := getConfigNodePath_facts s fuel id node path hn hp
  exact ⟨h1, h2, h3, h5⟩

theorem C2_path_shape_witness :
    getConfigNode wStore 2 = some wChild ∧
    getConfigNodePath wStore 3 2 = some [wRoot, wChild] ∧
    ([wRoot, wChild] ≠ ([] : List ConfigNode) ∧
      [wRoot, wChild].getLast? = some wChild ∧ chainOk [wRoot, wChild] = true ∧
      (∀ h t, [wRoot, wChild] = h :: t →
        h.parentId = none ∨ ∃ q, h.parentId = some q ∧ getConfigNode wStore q = none)) :=
  ⟨rfl, rfl, C2_path_shape wStore 3 2 wChild [wRoot, wChild] rfl rfl⟩

/-- C4: contrary to the claim, the path walk of the implementation has
no iteration bound and no cycle error: on a corrupted store whose
parent links form a cycle, the while loop never finishes, whatever
bound is allowed for its iterations. -/
theorem C4_cycle_no_bound :
    getConfigNode cycleStore 1 = some cycleNodeA ∧
    ∀ fuel, getConfigNodePath cycleStore fuel 1 = none :=
  ⟨rfl, fun fuel => cycleStore_pathAux fuel 1 [] (Or.inl rfl)⟩

/-- C1 fails as stated: on a store with one root whose two maps are
empty, the implementation resolves to the injected $NAME binding while
the fold described by the claim produces the empty map. -/
theorem C1_counterexample :
    resolveConfiguration store1 3 1 = some [("$NAME", Value.vstr "root")] ∧
    (getConfigNodePath store1 3 1).map claimFold = some [] ∧
    some [("$NAME", Value.vstr "root")] ≠ some ([] : PropMap) := by
  refine ⟨rfl, rfl, ?_⟩
  simp

/-- C1 amended: for a finished path walk whose nodes carry duplicate
free maps, the resolved configuration agrees, key by key, with the
specification fold in which each path node merges its defaults, then
its properties, and then binds $NAME to its own name, every write
overwriting; hence properties beat defaults inside one node and deeper
nodes beat shallower ones for every key, while $NAME is always rebound
last. -/
theorem C1_resolve_fold (s : Store) (fuel id : Nat) (path : List ConfigNode) (r : PropMap)
    (hp : getConfigNodePath s fuel id = some path)
    (hwf : ∀ n ∈ path, keysUnique n.defaults = true ∧ keysUnique n.properties = true)
    (hr : resolveConfiguration s fuel id = some r) :
    ∀ k, lookupKey r k = specResolve path k := by
  have hr2 : r = resolveFold path := by
    unfold resolveConfiguration at hr
    rw [hp] at hr
    exact (Option.some.inj hr).symm
  subst hr2
  intro k
  exact lookupKey_resolveFoldAux path [] hwf k

theorem C1_resolve_fold_witness :
    getConfigNodePath wStore 3 2 = some [wRoot, wChild] ∧
    (∀ n ∈ [wRoot, wChild], keysUnique n.defaults = true ∧ keysUnique n.properties = true) ∧
    resolveConfiguration wStore 3 2 = some (resolveFold [wRoot, wChild]) ∧
    ∀ k, lookupKey (resolveFold [wRoot, wChild]) k = specResolve [wRoot, wChild] k :=
  ⟨rfl, by decide, rfl,
    C1_resolve_fold wStore 3 2 [wRoot, wChild] (resolveFold [wRoot, wChild]) rfl (by decide) rfl⟩

/-- C10: for every node that exists in the store, the resolved
configuration binds the key $NAME to the name of the last node of the
path, the queried node itself, overwriting any value stored under that
key in the defaults or properties of any path node. -/
theorem C10_name_binding (s : Store) (fuel id : Nat) (node : ConfigNode)
    (path : List ConfigNode) (r : PropMap)
    (hn : getConfigNode s id = some node)
    (hp : getConfigNodePath s fuel id = some path)
    (hr : resolveConfiguration s fuel id = some r) :
    lookupKey r "$NAME" = some (Value.vstr node.name) := by
  unfold getConfigNodePath at hp
  cases fuel with
  | zero => rw [pathAux_zero] at hp; cases hp
  | succ f =>
    rw [pathAux_succ, hn] at hp
    obtain ⟨pre, rfl⟩ := pathAux_suffix s f node.parentId [node] _ hp
    have hr2 : r = resolveFold (pre ++ [node]) := by
      unfold resolveConfiguration getConfigNodePath at hr
      rw [pathAux_succ, hn, hp] at hr
      exact (Option.some.inj hr).symm
    subst hr2
    unfold resolveFold
    rw [List.foldl_append]
    simp only [List.foldl_cons, List.foldl_nil]
    exact lookupKey_setKey_self _ _ _

theorem C10_name_binding_witness :
    getConfigNode store7 1 = some node7 ∧
    getConfigNodePath store7 3 1 = some [node7] ∧
    resolveConfiguration store7 3 1 = some (resolveFold [node7]) ∧
    lookupKey node7.properties "$NAME" = some (Value.vnum 42) ∧
    lookupKey (resolveFold [node7]) "$NAME" = some (Value.vstr "root") :=
  ⟨rfl, rfl, rfl, rfl,
    C10_name_binding store7 3 1 node7 [node7] (resolveFold [node7]) rfl rfl rfl⟩

/-- C8 fails as stated: resolving the one-node store yields the key
$NAME even though no node on the path carries that key in its defaults
or properties. -/
theorem C8_counterexample :
    getConfigNodePath store1 3 1 = some [node1] ∧
    resolveConfiguration store1 3 1 = some [("$NAME", Value.vstr "root")] ∧
    containsKey [("$NAME", Value.vstr "root")] "$NAME" = true ∧
    containsKey node1.defaults "$NAME" = false ∧
    containsKey node1.properties "$NAME" = false :=
  ⟨rfl, rfl, rfl, rfl, rfl⟩

/-- C8 amended: a key is present in the resolved configuration exactly
when it is the injected $NAME key (for a non-empty path) or appears in
the defaults or properties of some node on the path; every other key is
absent, with no implicit nullability or synthesized entries. -/
theorem C8_keys (s : Store) (fuel id : Nat) (path : List ConfigNode) (r : PropMap)
    (hp : getConfigNodePath s fuel id = some path)
    (hr : resolveConfiguration s fuel id = some r) :
    ∀ k, containsKey r k = true ↔
      (k = "$NAME" ∧ path ≠ []) ∨
      ∃ n ∈ path, containsKey n.defaults k = true ∨ containsKey n.properties k = true := by
  have hr2 : r = resolveFold path := by
    unfold resolveConfiguration at hr
    rw [hp] at hr
    exact (Option.some.inj hr).symm
  subst hr2
  intro k
  unfold resolveFold
  rw [containsKey_resolveFoldAux path [] k]
  simp [containsKey_nil]

theorem C8_keys_witness :
    getConfigNodePath wStore 3 2 = some [wRoot, wChild] ∧
    resolveConfiguration wStore 3 2 = some (resolveFold [wRoot, wChild]) ∧
    ∀ k, containsKey (resolveFold [wRoot, wChild]) k = true ↔
      (k = "$NAME" ∧ [wRoot, wChild] ≠ []) ∨
      ∃ n ∈ [wRoot, wChild],
        containsKey n.defaults k = true ∨ containsKey n.properties k = true :=
  ⟨rfl, rfl, C8_keys wStore 3 2 [wRoot, wChild] (resolveFold [wRoot, wChild]) rfl rfl⟩

/-- C7 fails as stated: a number stored under the key $NAME does not
survive the round trip, coming back as the string name of the node. -/
theorem C7_counterexample :
    lookupKey node7.properties "$NAME" = some (Value.vnum 42) ∧
    resolveConfiguration store7 3 1 = some [("$NAME", Value.vstr "root")] ∧
    lookupKey [("$NAME", Value.vstr "root")] "$NAME" = some (Value.vstr "root") ∧
    some (Value.vstr "root") ≠ some (Value.vnum 42) := by
  refine ⟨rfl, rfl, rfl, ?_⟩
  intro h
  exact Value.noConfusion (Option.some.inj h)

/-- C7 amended: for every key other than the injected $NAME, resolution
passes stored values through structurally unchanged: a value stored in
the properties of the queried node itself resolves to exactly that
value, and every resolved value is structurally equal to a value stored
in the defaults or properties of some path node, so no merge step
coerces a tag. -/
theorem C7_round_trip (s : Store) (fuel id : Nat) (node : ConfigNode)
    (path : List ConfigNode) (r : PropMap) (k : String) (v : Value)
    (hn : getConfigNode s id = some node)
    (hp : getConfigNodePath s fuel id = some path)
    (hwf : ∀ n ∈ path, keysUnique n.defaults = true ∧ keysUnique n.properties = true)
    (hr : resolveConfiguration s fuel id = some r)
    (hk : k ≠ "$NAME") :
    (lookupKey node.properties k = some v → lookupKey r k = some v) ∧
    (lookupKey r k = some v →
      ∃ n ∈ path, lookupKey n.properties k = some v ∨ lookupKey n.defaults k = some v) := by
  have hr2 : r = resolveFold path := by
    unfold resolveConfiguration at hr
    rw [hp] at hr
    exact (Option.some.inj hr).symm
  have hlk : ∀ k2, lookupKey r k2 = specResolve path k2 := by
    intro k2
    rw [hr2]
    exact lookupKey_resolveFoldAux path [] hwf k2
  constructor
  · intro hv
    rw [hlk k]
    unfold getConfigNodePath at hp
    cases fuel with
    | zero => rw [pathAux_zero] at hp; cases hp
    | succ f =>
      rw [pathAux_succ, hn] at hp
      obtain ⟨pre, rfl⟩ := pathAux_suffix s f node.parentId [node] _ hp
      unfold specResolve
      rw [List.foldl_append]
      simp only [List.foldl_cons, List.foldl_nil]
      unfold specStep mergeSpec
      rw [if_neg hk, hv, oor_some]
  · intro hv
    rw [hlk k] at hv
    unfold specResolve at hv
    rcases specResolve_src k hk v path (fun _ => none) hv with h | h
    · exact h
    · cases h

theorem C7_round_trip_witness :
    getConfigNode wStore 2 = some wChild ∧
    getConfigNodePath wStore 3 2 = some [wRoot, wChild] ∧
    (∀ n ∈ [wRoot, wChild], keysUnique n.defaults = true ∧ keysUnique n.properties = true) ∧
    resolveConfiguration wStore 3 2 = some (resolveFold [wRoot, wChild]) ∧
    "region" ≠ "$NAME" ∧
    ((lookupKey wChild.properties "region" = some (Value.vstr "us-east-1") →
        lookupKey (resolveFold [wRoot, wChild]) "region" = some (Value.vstr "us-east-1")) ∧
      (lookupKey (resolveFold [wRoot, wChild]) "region" = some (Value.vstr "us-east-1") →
        ∃ n ∈ [wRoot, wChild],
          lookupKey n.properties "region" = some (Value.vstr "us-east-1") ∨
          lookupKey n.defaults "region" = some (Value.vstr "us-east-1"))) :=
  ⟨rfl, rfl, by decide, rfl, by decide,
    C7_round_trip wStore 3 2 wChild [wRoot, wChild] (resolveFold [wRoot, wChild])
      "region" (Value.vstr "us-east-1") rfl rfl (by decide) rfl (by decide)⟩

/-- C3: when the cascading delete of a node finishes, every node whose
path contains the deleted node is gone from the store, so the
not-found guard that the resolve and path routes run first reports
NotFound for it, and no remaining node references a removed node as its
parent. -/
theorem C3_cascade_delete (s : Store) (fuelD fuelP pid did : Nat) (p dnode : ConfigNode)
    (s2 : Store) (path : List ConfigNode)
    (hu : idsUnique s = true)
    (hd : deleteConfigNode s fuelD pid = some s2)
    (hdn : getConfigNode s did = some dnode)
    (hpath : getConfigNodePath s fuelP did = some path)
    (hmem : p ∈ path) (hpid : p.id = pid) :
    getConfigNode s2 did = none ∧
    (∀ m ∈ s2, ∀ q, m.parentId = some q → (∃ t ∈ s, t.id = q) → ∃ t ∈ s2, t.id = q) := by
  obtain ⟨hsub, hnoid, _, hrc⟩ := (deleteSpec fuelD).1 s pid s2 hu hd
  obtain ⟨hne, hlast, hchain, hmems, _⟩ := getConfigNodePath_facts s fuelP did dnode path hdn hpath
  obtain ⟨l1, l2, rfl⟩ := List.append_of_mem hmem
  have hchain2 : chainOk (p :: l2) = true := chainOk_append_right l1 (p :: l2) hchain
  have hpnoid : noId s2 p.id := by rw [hpid]; exact hnoid
  have hall : ∀ y ∈ p :: l2, noId s2 y.id :=
    chainDescent s s2 hsub hu hrc l2 p hchain2
      (fun y hy => hmems y (List.mem_append_right l1 hy)) hpnoid
  have hdl : dnode ∈ p :: l2 := by
    apply mem_of_getLast?_eq
    rw [← getLast?_append_right l1 (p :: l2) (by simp)]
    exact hlast
  have hnodid : noId s2 dnode.id := hall dnode hdl
  have hdid : dnode.id = did := getConfigNode_id s did dnode hdn
  constructor
  · apply List.find?_eq_none.mpr
    intro x hx
    simp only [Bool.not_eq_true, beq_eq_false_iff_ne, ne_eq]
    intro he
    exact hnodid x hx (by rw [he, hdid])
  · intro m hm q hq hts
    rcases hrc m hm q hq with hlive | hdang
    · exact hlive
    · rcases hts with ⟨t, ht, hteq⟩
      exact absurd hteq (hdang t ht)

theorem C3_cascade_delete_witness :
    idsUnique wStore = true ∧
    deleteConfigNode wStore 3 1 = some [] ∧
    getConfigNode wStore 2 = some wChild ∧
    getConfigNodePath wStore 3 2 = some [wRoot, wChild] ∧
    wRoot ∈ [wRoot, wChild] ∧ wRoot.id = 1 ∧
    (getConfigNode [] 2 = none ∧
      ∀ m ∈ ([] : Store), ∀ q, m.parentId = some q →
        (∃ t ∈ wStore, t.id = q) → ∃ t ∈ ([] : Store), t.id = q) :=
  ⟨rfl, rfl, rfl, rfl, by simp, rfl,
    C3_cascade_delete wStore 3 3 1 2 wRoot wChild [] [wRoot, wChild]
      rfl rfl rfl rfl (by simp) rfl⟩

/-- C5 fails as stated: the create handler answers the same 400
validation error (Invalid parent node) both when the parent is missing
and when the parent belongs to another caller, rather than NotFound or
AccessDenied, though it creates nothing in either case. -/
theorem C5_counterexample :
    (createConfigNodeRoute store1 "bob" "x" "territory" (some 1) [] []).1 =
      CreateNodeResult.failed RouteError.validationError ∧
    (createConfigNodeRoute store1 "alice" "x" "territory" (some 99) [] []).1 =
      CreateNodeResult.failed RouteError.validationError ∧
    RouteError.validationError ≠ RouteError.accessDenied ∧
    RouteError.validationError ≠ RouteError.notFound :=
  ⟨rfl, rfl, by decide, by decide⟩

/-- C5 amended: for a create call carrying a truthy parent id, both
when the parent is missing and when the parent belongs to another
caller, the handler fails with the single 400 validation error and
leaves the store unchanged, so no node is created. -/
theorem C5_create_parent_guard (s : Store) (uid nm ntype : String) (pid : Nat)
    (props defs : PropMap)
    (hpid : pid ≠ 0)
    (hbad : getConfigNode s pid = none ∨
      ∃ parent, getConfigNode s pid = some parent ∧ parent.userId ≠ uid) :
    createConfigNodeRoute s uid nm ntype (some pid) props defs =
      (CreateNodeResult.failed RouteError.validationError, s) := by
  simp only [createConfigNodeRoute]
  have hb : (pid != 0) = true := by simpa using hpid
  rcases hbad with hnone | ⟨parent, hsome, hne⟩
  · rw [hb, if_pos rfl, hnone]
  · have hne2 : (parent.userId != uid) = true := by simpa using hne
    rw [hb, if_pos rfl, hsome]
    show (if (parent.userId != uid) = true then
        (CreateNodeResult.failed RouteError.validationError, s)
      else createInsert s uid nm ntype (some pid) props defs) =
      (CreateNodeResult.failed RouteError.validationError, s)
    rw [hne2, if_pos rfl]

theorem C5_create_parent_guard_witness :
    (1 : Nat) ≠ 0 ∧
    (getConfigNode store1 1 = none ∨
      ∃ parent, getConfigNode store1 1 = some parent ∧ parent.userId ≠ "bob") ∧
    createConfigNodeRoute store1 "bob" "x" "territory" (some 1) [] [] =
      (CreateNodeResult.failed RouteError.validationError, store1) :=
  ⟨by decide, Or.inr ⟨node1, rfl, by decide⟩,
    C5_create_parent_guard store1 "bob" "x" "territory" 1 [] [] (by decide)
      (Or.inr ⟨node1, rfl, by decide⟩)⟩

/-- C6 fails as stated: an update payload carrying nodeType and
parentId changes both on the stored row, so they are not immutable
after creation. -/
theorem C6_counterexample :
    (getConfigNode store1 1).map (fun n => n.nodeType) = some "territory" ∧
    ((updateConfigNode store1 1
        { nodeType := some "center", parentId := some (some 7) }).2).map
      (fun n => (n.nodeType, n.parentId)) = some ("center", some 7) ∧
    some "center" ≠ some "territory" :=
  ⟨rfl, rfl, by decide⟩

/-- C6 amended: an update leaves every unsupplied field unchanged,
replaces a supplied properties or defaults map entirely (an empty map
empties the stored one, with no per-key merging), never changes the id
or userId, leaves every other row of the store untouched, and also
applies a supplied name, nodeType or parentId, which are therefore not
immutable at this layer. -/
theorem C6_update_fields (s : Store) (id : Nat) (u : UpdateData) (n : ConfigNode)
    (hn : getConfigNode s id = some n) :
    (updateConfigNode s id u).2 = some (applyUpdate n u) ∧
    getConfigNode (updateConfigNode s id u).1 id = some (applyUpdate n u) ∧
    (∀ j, j ≠ id → getConfigNode (updateConfigNode s id u).1 j = getConfigNode s j) ∧
    (applyUpdate n u).id = n.id ∧ (applyUpdate n u).userId = n.userId ∧
    (applyUpdate n u).name = u.name.getD n.name ∧
    (applyUpdate n u).properties = u.properties.getD n.properties ∧
    (applyUpdate n u).defaults = u.defaults.getD n.defaults ∧
    (applyUpdate n u).nodeType = u.nodeType.getD n.nodeType ∧
    (applyUpdate n u).parentId = u.parentId.getD n.parentId := by
  have hfid : ∀ x : ConfigNode, (if x.id == id then applyUpdate x u else x).id = x.id := by
    intro x
    cases hx : x.id == id
    · rw [if_neg (by simp)]
    · rw [if_pos rfl]
      rfl
  have hnid : (n.id == id) = true := by
    rw [getConfigNode_id s id n hn]
    exact beq_self_eq_true id
  refine ⟨?_, ?_, ?_, rfl, rfl, rfl, rfl, rfl, rfl, rfl⟩
  · unfold updateConfigNode
    unfold getConfigNode at hn
    rw [hn]
    rfl
  · unfold updateConfigNode getConfigNode
    rw [find?_map_eq s _ _ (fun x => by rw [hfid x])]
    unfold getConfigNode at hn
    rw [hn]
    show some (if n.id == id then applyUpdate n u else n) = some (applyUpdate n u)
    rw [if_pos hnid]
  · intro j hj
    unfold updateConfigNode getConfigNode
    rw [find?_map_eq s _ _ (fun x => by rw [hfid x])]
    cases hfj : s.find? (fun x => x.id == j) with
    | none => rfl
    | some m =>
      have hmj : m.id = j := by simpa using List.find?_some hfj
      have hmne : (m.id == id) = false := by
        cases hmq : m.id == id
        · rfl
        · exact absurd (hmj.symm.trans (eq_of_beq hmq)) hj
      show some (if m.id == id then applyUpdate m u else m) = some m
      rw [if_neg (by simp [hmne])]

theorem C6_update_fields_witness :
    getConfigNode store1 1 = some node1 ∧
    ((updateConfigNode store1 1 { properties := some [] }).2 =
        some (applyUpdate node1 { properties := some [] }) ∧
      getConfigNode (updateConfigNode store1 1 { properties := some [] }).1 1 =
        some (applyUpdate node1 { properties := some [] }) ∧
      (∀ j, j ≠ 1 →
        getConfigNode (updateConfigNode store1 1 { properties := some [] }).1 j =
          getConfigNode store1 j) ∧
      (applyUpdate node1 { properties := some [] }).id = node1.id ∧
      (applyUpdate node1 { properties := some [] }).userId = node1.userId ∧
      (applyUpdate node1 { properties := some [] }).name =
        (({ properties := some [] } : UpdateData)).name.getD node1.name ∧
      (applyUpdate node1 { properties := some [] }).properties =
        (({ properties := some [] } : UpdateData)).properties.getD node1.properties ∧
      (applyUpdate node1 { properties := some [] }).defaults =
        (({ properties := some [] } : UpdateData)).defaults.getD node1.defaults ∧
      (applyUpdate node1 { properties := some [] }).nodeType =
        (({ properties := some [] } : UpdateData)).nodeType.getD node1.nodeType ∧
      (applyUpdate node1 { properties := some [] }).parentId =
        (({ properties := some [] } : UpdateData)).parentId.getD node1.parentId) :=
  ⟨rfl, C6_update_fields store1 1 { properties := some [] } node1 rfl⟩

/-- C9 fails as stated: on a store with one node and no stored
properties, the embedded-map resolver produces the injected $NAME
binding while the per-row resolver produces the empty mapping, so the
two implementations do not compute the same effective configuration. -/
theorem C9_counterexample :
    resolveFold [node1] = [("$NAME", Value.vstr "root")] ∧
    goResolveFold [] [node1] = [] ∧
    ([("$NAME", Value.vstr "root")] : PropMap) ≠ [] := by
  refine ⟨rfl, rfl, ?_⟩
  simp

/-- C9 amended: the two resolvers disagree in general, since the
embedded-map resolver injects $NAME and merges defaults while the
per-row resolver reads only the value column; restricted to paths whose
nodes have empty defaults and whose property rows agree with the
embedded property maps, both resolvers produce the same value for every
key other than $NAME. -/
theorem C9_refinement (table : PropTable) (path : List ConfigNode)
    (hcorr : ∀ n ∈ path, n.defaults = [] ∧ keysUnique n.properties = true ∧
      keysUnique (getPropertiesByNodeID table n.id) = true ∧
      (∀ k2, lookupKey (getPropertiesByNodeID table n.id) k2 = lookupKey n.properties k2)) :
    ∀ k, k ≠ "$NAME" →
      lookupKey (goResolveFold table path) k = lookupKey (resolveFold path) k := by
  intro k hk
  unfold goResolveFold resolveFold
  exact goTsAux table path [] [] hcorr (fun _ _ => rfl) k hk

theorem C9_refinement_witness :
    (∀ n ∈ [gNode], n.defaults = [] ∧ keysUnique n.properties = true ∧
      keysUnique (getPropertiesByNodeID gTable n.id) = true ∧
      (∀ k2, lookupKey (getPropertiesByNodeID gTable n.id) k2 = lookupKey n.properties k2)) ∧
    ∀ k, k ≠ "$NAME" →
      lookupKey (goResolveFold gTable [gNode]) k = lookupKey (resolveFold [gNode]) k :=
  ⟨by
    intro n hn
    rcases List.mem_singleton.mp hn with rfl
    exact ⟨rfl, rfl, rfl, fun k2 => rfl⟩,
    C9_refinement gTable [gNode] (by
      intro n hn
      rcases List.mem_singleton.mp hn with rfl
      exact ⟨rfl, rfl, rfl, fun k2 => rfl⟩)⟩

end ConfigMgmt
